import Mathlib

/-!
Verification of the ytmp3 job-lifecycle and progress-streaming core
(src/app.py) against its natural-language specification.

The Python source is shallowly embedded: the in-memory job registry
(`JOBS` + `JOB_LOCK`) becomes a functional map with atomic take/put,
the SSE generator/worker pair becomes an interleaved small-step model,
and the pure helpers (`sanitize_filename`, `is_youtube_url`, the
progress hook, the output-file selection) become Lean functions.
-/

set_option maxRecDepth 8000

namespace YtMp3

/- ===================================================================
   JobStore: JOBS dict guarded by JOB_LOCK (src/app.py lines 30-31).
   `JOBS.pop(token, None)` under the lock is an atomic remove-and-return,
   used by both `download_token` (line 452) and `_cleanup` (line 37).
   =================================================================== -/

/-- Job record stored in `JOBS`: `{'path': ..., 'filename': ..., 'expires_at': ...}`
(src/app.py line 385). Time is modelled in whole seconds. -/
structure Job where
  path : String
  filename : String
  expires_at : Nat
deriving DecidableEq

/-- The `JOBS` dict, token -> job record. -/
abbrev Store : Type := String → Option Job

def emptyStore : Store := fun _ => none

/-- `with JOB_LOCK: job = JOBS.pop(token, None)` — atomic remove-and-return. -/
def storeTake (s : Store) (t : String) : Option Job × Store :=
  (s t, fun u => if u = t then none else s u)

/-- `with JOB_LOCK: JOBS[token] = job` (src/app.py line 384-385). -/
def storePut (s : Store) (t : String) (j : Job) : Store :=
  fun u => if u = t then some j else s u

/-- An operation performed on the job registry by some thread
(worker registration, download endpoint, cleanup timer). -/
inductive StoreOp where
  | put (t : String) (j : Job)
  | take (t : String)

def applyOp (s : Store) : StoreOp → Store
  | .put t j => storePut s t j
  | .take t => (storeTake s t).2

def applyOps (s : Store) (ops : List StoreOp) : Store :=
  ops.foldl applyOp s

/- ===================================================================
   sanitize_filename (src/app.py lines 60-67):

   def sanitize_filename(name, max_length=200):
       if not name: return "untitled"
       name = re.sub(r'[\\/:*?"<>|]+', '', name)
       name = re.sub(r'\s+', ' ', name).strip()
       if len(name) > max_length: name = name[:max_length].rstrip()
       return name or "untitled"
   =================================================================== -/

/-- The characters removed by the regex character class. -/
def unsafeChars : List Char := ['\\', '/', ':', '*', '?', '"', '<', '>', '|']

/-- Whitespace characters matched by Python regex `\s` and stripped by
`str.strip()` on `str` input (ASCII whitespace plus the Unicode
whitespace code points). -/
def pySpaceChars : List Char :=
  [' ', '\t', '\n', '\r', '\x0b', '\x0c', '\x1c', '\x1d', '\x1e', '\x1f',
   '\x85', '\xa0', ' ', ' ', ' ', ' ', ' ', '　']

def isSpaceChar (c : Char) : Bool :=
  pySpaceChars.contains c || (decide (' ' ≤ c) && decide (c ≤ ' '))

/-- `re.sub(r'[\\/:*?"<>|]+', '', name)`: since the replacement is empty,
the substitution deletes every unsafe character. -/
def removeUnsafe (l : List Char) : List Char :=
  l.filter (fun c => !unsafeChars.contains c)

/-- `re.sub(r'\s+', ' ', name)`: each maximal run of whitespace becomes a
single space.  The flag records whether the previous character was part of
a whitespace run. -/
def collapseWS (prevSpace : Bool) : List Char → List Char
  | [] => []
  | c :: cs =>
    if isSpaceChar c then
      (if prevSpace then collapseWS true cs else ' ' :: collapseWS true cs)
    else c :: collapseWS false cs

/-- `str.rstrip()`. -/
def rstripL (l : List Char) : List Char :=
  (l.reverse.dropWhile isSpaceChar).reverse

/-- `str.strip()`. -/
def stripL (l : List Char) : List Char :=
  rstripL (l.dropWhile isSpaceChar)

def sanitizeCore (l : List Char) (maxLength : Nat) : List Char :=
  let l1 := removeUnsafe l
  let l2 := stripL (collapseWS false l1)
  if maxLength < l2.length then rstripL (l2.take maxLength) else l2

def sanitize_filename (name : String) (maxLength : Nat := 200) : String :=
  if name = "" then "untitled"
  else
    let r := sanitizeCore name.toList maxLength
    if r = [] then "untitled" else String.mk r

/- ===================================================================
   is_youtube_url (src/app.py lines 53-57):

   def is_youtube_url(url):
       if not url: return False
       url = url.lower()
       return 'youtube.com/watch' in url or 'youtube.com/playlist' in url
              or 'youtu.be/' in url
   =================================================================== -/

def lowerStr (s : String) : String :=
  String.mk (s.toList.map Char.toLower)

/-- Python `needle in haystack` on strings: contiguous substring test. -/
def substrB (needle hay : String) : Bool :=
  decide (needle.toList <:+: hay.toList)

def is_youtube_url (url : String) : Bool :=
  if url = "" then false
  else
    let u := lowerStr url
    substrB "youtube.com/watch" u || substrB "youtube.com/playlist" u ||
      substrB "youtu.be/" u

/- ===================================================================
   Request gating shared by /progress (lines 271-293) and /fetch
   (lines 477-493): missing-url check, then optional API-key check,
   then URL-shape check, and only then any work (tempdir creation).
   =================================================================== -/

/-- The API-key gate (`if API_KEY: ...`).  `apiKey` is the process
environment secret (`None` when unset); a configured empty string is
falsy in Python, so it disables enforcement.  `header` is
`request.headers.get('X-API-Key')`; an empty header is falsy and hits
the `missing` branch.  Returns `some (status, message)` on rejection. -/
def apiKeyGate (apiKey header : Option String) : Option (Nat × String) :=
  match apiKey with
  | none => none
  | some k =>
    if k = "" then none
    else
      match header with
      | none => some (403, "missing X-API-Key header")
      | some h =>
        if h = "" then some (403, "missing X-API-Key header")
        else if h = k then none
        else some (403, "invalid api key")

/-- Observable actions of an endpoint handler, in program order. -/
inductive Act where
  | rejected (status : Nat) (msg : String)
  | createdTempDir
  | ranEngine (url : String)
  | startedWorker (url : String)
deriving DecidableEq

/-- Action trace of `/fetch` up to the point where the external engine
takes over (src/app.py lines 477-520).  `urlArg` is
`request.args.get('url')`. -/
def fetchTrace (apiKey urlArg header : Option String) : List Act :=
  match urlArg with
  | none => [.rejected 400 "missing url parameter"]
  | some url =>
    if url = "" then [.rejected 400 "missing url parameter"]
    else
      match apiKeyGate apiKey header with
      | some (s, m) => [.rejected s m]
      | none =>
        if is_youtube_url url then [.createdTempDir, .ranEngine url]
        else [.rejected 400 "unsupported url domain"]

/-- Action trace of `/progress` up to worker launch (src/app.py lines
271-293 and the head of `generate`, lines 292-294, 400-402). -/
def progressTrace (apiKey urlArg header : Option String) : List Act :=
  match urlArg with
  | none => [.rejected 400 "missing url parameter"]
  | some url =>
    if url = "" then [.rejected 400 "missing url parameter"]
    else
      match apiKeyGate apiKey header with
      | some (s, m) => [.rejected s m]
      | none =>
        if is_youtube_url url then [.createdTempDir, .startedWorker url]
        else [.rejected 400 "unsupported url domain"]

/- ===================================================================
   /download/<token> (src/app.py lines 449-471): pop the token under
   the lock, 404 if absent, else stream the file as an attachment and
   delete the job directory after the response.  The handler never
   consults API_KEY or the X-API-Key header.
   =================================================================== -/

/-- `os.path.dirname` for POSIX paths. -/
def dirname (p : String) : String :=
  let l := p.toList
  let i := l.length - (l.reverse.takeWhile (fun c => c != '/')).length
  let head := l.take i
  if head ≠ [] ∧ head.any (fun c => c != '/') then
    String.mk (head.reverse.dropWhile (fun c => c = '/')).reverse
  else String.mk head

/-- `os.path.basename` for POSIX paths. -/
def basename (p : String) : String :=
  String.mk (p.toList.reverse.takeWhile (fun c => c != '/')).reverse

inductive DlResp where
  | rejected (status : Nat) (msg : String)
  | file (path : String) (name : String)
deriving DecidableEq

def DlResp.isRejection : DlResp → Bool
  | .rejected _ _ => true
  | .file _ _ => false

structure DlOutcome where
  resp : DlResp
  store : Store
  cleanupDirAfterResponse : Option String

/-- The `/download/<token>` handler.  `apiKey` and `header` are in scope
for the handler (module global and request header) but the source never
reads them: there is no key check on this route. -/
def download_token (apiKey header : Option String) (store : Store)
    (token : String) : DlOutcome :=
  let r := storeTake store token
  match r.1 with
  | none => ⟨.rejected 404 "invalid or expired token", r.2, none⟩
  | some job =>
    let filename := if job.filename = "" then basename job.path else job.filename
    ⟨.file job.path filename, r.2, some (dirname job.path)⟩

/- ===================================================================
   schedule_job_cleanup's timer body _cleanup (src/app.py lines 35-43):

   def _cleanup():
       with JOB_LOCK: job = JOBS.pop(token, None)
       if job:
           try:
               shutil.rmtree(os.path.dirname(job['path']), ignore_errors=True)
               app.logger.info(...)
           except Exception:
               app.logger.exception(...)
   =================================================================== -/

/-- `shutil.rmtree(dir, ignore_errors=...)` as an effect that can fail:
with `ignore_errors=True` the deletion error is suppressed inside
`rmtree` and nothing is raised. -/
def rmtreeModel (ignoreErrors deletionFails : Bool) : Except String Unit :=
  if deletionFails && !ignoreErrors then .error "OSError" else .ok ()

structure CleanupResult where
  store : Store
  deletedDir : Option String
  suppressedError : Bool
  loggedException : Bool

/-- The `_cleanup` timer body.  The outer `Except` is the exception that
would escape `_cleanup` to its caller (the timer thread); `.ok` means a
normal return. -/
def cleanup_run (store : Store) (token : String) (deletionFails : Bool) :
    Except String CleanupResult :=
  let r := storeTake store token
  match r.1 with
  | none => .ok ⟨r.2, none, false, false⟩
  | some job =>
    match rmtreeModel true deletionFails with
    | .ok _ => .ok ⟨r.2, some (dirname job.path), deletionFails, false⟩
    | .error _ => .ok ⟨r.2, some (dirname job.path), deletionFails, true⟩

def cleanupRaised : Except String CleanupResult → Bool
  | .ok _ => false
  | .error _ => true

def cleanupLogged : Except String CleanupResult → Bool
  | .ok c => c.loggedException
  | .error _ => false

def cleanupSuppressed : Except String CleanupResult → Bool
  | .ok c => c.suppressedError
  | .error _ => false

def cleanupDeleted : Except String CleanupResult → Option String
  | .ok c => c.deletedDir
  | .error _ => none

/- ===================================================================
   progress_hook (src/app.py lines 323-339):

   status == 'downloading':
       total = d.get('total_bytes') or d.get('total_bytes_estimate') or 0
       downloaded = d.get('downloaded_bytes') or 0
       percent = (downloaded / total * 100) if total else None
       push_event('progress', {...})
   status == 'finished':
       push_event('progress', {'status': 'download finished, converting...'})
   =================================================================== -/

/-- The yt-dlp callback payload fields the hook reads.  Byte counts and
rates are modelled as rationals (yt-dlp reports ints and floats). -/
structure HookData where
  status : Option String
  total_bytes : Option ℚ
  total_bytes_estimate : Option ℚ
  downloaded_bytes : Option ℚ
  speed : Option ℚ
  eta : Option ℚ
  filename : Option String

/-- Python `a or b` on an optional number: `None` and `0` are falsy. -/
def pyOrQ (a : Option ℚ) (b : ℚ) : ℚ :=
  match a with
  | none => b
  | some q => if q = 0 then b else q

def totalOf (d : HookData) : ℚ :=
  pyOrQ d.total_bytes (pyOrQ d.total_bytes_estimate 0)

def downloadedOf (d : HookData) : ℚ :=
  pyOrQ d.downloaded_bytes 0

/-- What the hook pushes onto the event queue (always under the SSE
event name `progress`). -/
inductive HookPush where
  | downloadingEvt (percent : Option ℚ) (speed : Option ℚ) (eta : Option ℚ)
      (filename : Option String)
  | statusNote (text : String)
deriving DecidableEq

def progress_hook (d : HookData) : Option HookPush :=
  match d.status with
  | some s =>
    if s = "downloading" then
      let total := totalOf d
      let downloaded := downloadedOf d
      let percent := if total ≠ 0 then some (downloaded / total * 100) else none
      some (.downloadingEvt percent d.speed d.eta d.filename)
    else if s = "finished" then
      some (.statusNote "download finished, converting...")
    else none
  | none => none

/-- Spec-side condition, stated in the words of the claim: a total byte
count, exact or estimated, is known and non-zero. -/
def specTotalKnown (d : HookData) : Prop :=
  (∃ t, d.total_bytes = some t ∧ t ≠ 0) ∨
  (∃ t, d.total_bytes_estimate = some t ∧ t ≠ 0)

/- ===================================================================
   Single-item output selection (src/app.py lines 369-381 in
   run_download, duplicated at lines 548-558 in fetch):

   mp3_path = os.path.join(tempdir, f"{title}.mp3")
   if not os.path.exists(mp3_path):
       mp3s = [f for f in os.listdir(tempdir) if f.lower().endswith('.mp3')]
       if len(mp3s) == 1: mp3_path = ...mp3s[0]
       elif len(mp3s) > 1: match = next((f for f in mp3s if title in f), mp3s[0])
       else: raise RuntimeError("expected mp3 file not found after download")
   =================================================================== -/

/-- `f.lower().endswith('.mp3')`. -/
def isMp3Name (f : String) : Bool :=
  decide (".mp3".toList <:+ f.toList.map Char.toLower)

/-- Selection of the output file for a single-item result.  `files` is
the listing of the job's temp directory; the result is the chosen file
name or the message of the raised `RuntimeError`. -/
def chooseSingleOutput (files : List String) (title : String) :
    Except String String :=
  let expected := title ++ ".mp3"
  if expected ∈ files then .ok expected
  else
    match files.filter isMp3Name with
    | [] => .error "expected mp3 file not found after download"
    | [f] => .ok f
    | f :: g :: t => .ok (((f :: g :: t).find? (fun x => substrB title x)).getD f)

/- ===================================================================
   The /progress SSE generator and its worker (src/app.py lines 292-443).

   Worker (run_download, lines 343-398): pushes `progress` events via
   push_event (queue append under queue_lock), and in its finally block
   first sets finished['done'] = True and then pushes one final
   `progress` event.

   Consumer (generate loop, lines 404-424): while not finished or the
   queue is non-empty, pop-and-yield the first queued event, else yield
   a keep-alive comment and sleep; after the loop, yield exactly one
   `done` or `error` event according to result['success'].

   The interleaving of the two threads is modelled by a schedule: before
   each consumer iteration the worker executes some number of its
   remaining atomic steps.
   =================================================================== -/

/-- One server-sent event as built by `sse_event(name, data)`. -/
structure SSE where
  name : String
  data : String
deriving DecidableEq

/-- An atomic step of the worker thread: a `push_event` call (queue
append under the lock) or setting the `finished['done']` flag. -/
inductive WStep where
  | wpush (e : SSE)
  | wfinish
deriving DecidableEq

/-- Shared state seen by the generator: the event queue, the finished
flag, and the worker's remaining steps. -/
structure GenSt where
  queue : List SSE
  finished : Bool
  pending : List WStep
deriving DecidableEq

def wstep : GenSt → GenSt
  | ⟨q, f, []⟩ => ⟨q, f, []⟩
  | ⟨q, f, .wpush e :: ws⟩ => ⟨q ++ [e], f, ws⟩
  | ⟨q, _, .wfinish :: ws⟩ => ⟨q, true, ws⟩

def wsteps : Nat → GenSt → GenSt
  | 0, s => s
  | n + 1, s => wsteps n (wstep s)

/-- One item written to the HTTP response stream: a named SSE event or
an unnamed keep-alive comment line. -/
inductive Item where
  | event (e : SSE)
  | comment (text : String)
deriving DecidableEq

/-- The `while not finished['done'] or event_queue:` loop.  `fuel`
bounds the number of iterations (`none` = still running after `fuel`
polls); `sched` gives the number of worker steps executed before each
poll.  Returns the yielded items and the state at loop exit. -/
def genLoop : Nat → List Nat → GenSt → Option (List Item × GenSt)
  | 0, _, _ => none
  | fuel + 1, sched, s =>
    let s1 := wsteps (sched.headD 0) s
    if s1.finished = true ∧ s1.queue = [] then some ([], s1)
    else
      match s1.queue with
      | e :: rest =>
        match genLoop fuel sched.tail ⟨rest, s1.finished, s1.pending⟩ with
        | some (out, sf) => some (Item.event e :: out, sf)
        | none => none
      | [] =>
        match genLoop fuel sched.tail s1 with
        | some (out, sf) => some (Item.comment "keep-alive" :: out, sf)
        | none => none

/-- The full generator body after worker start: the draining loop
followed by the single terminal event chosen from `result['success']`
(lines 420-424).  `doneData`/`errorData` are the rendered JSON payloads
of the `done` and `error` events. -/
def generateRun (fuel : Nat) (sched : List Nat) (success : Bool)
    (doneData errorData : String) (ws : List WStep) : Option (List Item × GenSt) :=
  match genLoop fuel sched ⟨[], false, ws⟩ with
  | some (out, sf) =>
    some (out ++ [Item.event ⟨if success then "done" else "error",
                              if success then doneData else errorData⟩], sf)
  | none => none

/-- The worker step sequence of `run_download`: every `push_event` call
made while the engine runs carries the event name `progress`
(progress_hook, lines 337-339), and the finally block (lines 395-398)
sets the flag and then pushes one last `progress` event. -/
def runDownloadTrace (hookData : List String) (finalData : String) : List WStep :=
  hookData.map (fun d => WStep.wpush ⟨"progress", d⟩) ++
    [WStep.wfinish, WStep.wpush ⟨"progress", finalData⟩]

/-- Events pushed by a list of worker steps, in order. -/
def pushesOf (ws : List WStep) : List SSE :=
  ws.filterMap (fun w => match w with | .wpush e => some e | .wfinish => none)

def isTerminalItem : Item → Bool
  | .event e => e.name == "done" || e.name == "error"
  | .comment _ => false

/- ===================================================================
   Concrete objects used by witnesses and counterexamples.
   =================================================================== -/

def job0 : Job := ⟨"tmp/ydl_abc/song.mp3", "song.mp3", 600⟩

def store1 : Store := storePut emptyStore "tok" job0

def hookD0 : HookData := ⟨some "downloading", some 200, none, some 50, none, none, none⟩

/- ===================================================================
   Helper lemmas
   =================================================================== -/

theorem applyOps_absent : ∀ (ops : List StoreOp) (s : Store) (t : String),
    s t = none → (∀ j, StoreOp.put t j ∉ ops) → applyOps s ops t = none := by
  intro ops
  induction ops with
  | nil => intro s t hs _; exact hs
  | cons op tl ih =>
    intro s t hs hops
    have htl : ∀ j, StoreOp.put t j ∉ tl := fun j h =>
      hops j (List.mem_cons_of_mem _ h)
    cases op with
    | put t2 j2 =>
      have hne : t ≠ t2 := by
        intro h
        subst h
        exact hops j2 (List.mem_cons_self _ _)
      exact ih (storePut s t2 j2) t (by simp [storePut, hne, hs]) htl
    | take t2 =>
      refine ih (storeTake s t2).2 t ?_ htl
      by_cases h : t = t2 <;> simp [storeTake, h, hs]

theorem totalOf_ne_zero_iff (d : HookData) : totalOf d ≠ 0 ↔ specTotalKnown d := by
  unfold totalOf specTotalKnown pyOrQ
  cases htb : d.total_bytes with
  | none =>
    cases hte : d.total_bytes_estimate with
    | none => simp
    | some t => by_cases h : t = 0 <;> simp [h]
  | some t =>
    by_cases h : t = 0
    · subst h
      cases hte : d.total_bytes_estimate with
      | none => simp
      | some t2 => by_cases h2 : t2 = 0 <;> simp [h2]
    · simp [h]

theorem isMp3Name_expected (t : String) : isMp3Name (t ++ ".mp3") = true := by
  unfold isMp3Name
  simp only [decide_eq_true_eq]
  have h1 : (t ++ ".mp3").toList = t.toList ++ ".mp3".toList := rfl
  rw [h1, List.map_append]
  have h2 : ".mp3".toList.map Char.toLower = ".mp3".toList := by decide
  rw [h2]
  exact List.suffix_append _ _

/- ===================================================================
   C1
   =================================================================== -/

/-- C1: the JobStore take operation (`JOBS.pop` under `JOB_LOCK`) returns
the stored Job at most once.  After a take that returns a Job for a
token, any later take of the same token returns absent, across any
interleaving of further registry operations that does not re-register
that token (tokens are fresh UUIDs and registered once) — so the job's
file is reclaimed and served at most once whether the download endpoint
or the cleanup timer takes it first. -/
theorem jobstore_take_at_most_once (s : Store) (t : String) (j : Job)
    (ops : List StoreOp) (h1 : (storeTake s t).1 = some j)
    (h2 : ∀ j2, StoreOp.put t j2 ∉ ops) :
    (storeTake (applyOps (storeTake s t).2 ops) t).1 = none := by
  have hs : ((storeTake s t).2) t = none := by simp [storeTake]
  exact applyOps_absent ops (storeTake s t).2 t hs h2

/-- C1 witness: a concrete store and token, with a later interleaved
operation by the other consumer. -/
theorem jobstore_take_at_most_once_witness :
    (storeTake store1 "tok").1 = some job0 ∧
    (storeTake (applyOps (storeTake store1 "tok").2 [StoreOp.take "other"])
      "tok").1 = none := by
  refine ⟨rfl, jobstore_take_at_most_once store1 "tok" job0 [StoreOp.take "other"]
    rfl ?_⟩
  intro j2 h
  simp at h

/- ===================================================================
   C5
   =================================================================== -/

/-- C5 counterexample: the regex substitution deletes the unsafe
characters outright (the replacement string is empty), so no space is
introduced between `My` and `Song`; the result is `MySong`, not the
claimed `My Song`. -/
theorem sanitize_example_not_my_space_song :
    sanitize_filename "  My:/Song*?  " ≠ "My Song" := by decide

/-- C5 amended: sanitizing `"  My:/Song*?  "` yields `"MySong"`
(filesystem-unsafe characters deleted, whitespace collapsed and
trimmed), and sanitizing the empty string yields `"untitled"`. -/
theorem sanitize_example_values :
    sanitize_filename "  My:/Song*?  " = "MySong" ∧
    sanitize_filename "" = "untitled" := by
  exact ⟨by decide, rfl⟩

/- ===================================================================
   C7
   =================================================================== -/

/-- C7: in the progress hook, a callback with status `downloading` emits
a downloading event whose percent is `downloaded/total*100` exactly when
a total byte count (exact or estimated) is known and non-zero, and null
otherwise — the guard `if total` makes the two conditions coincide, so
the division is never taken with a zero total; a callback with status
`finished` maps to the converting status note. -/
theorem progress_hook_percent_spec (d : HookData) :
    (d.status = some "downloading" →
      (specTotalKnown d →
        progress_hook d = some (.downloadingEvt
          (some (downloadedOf d / totalOf d * 100)) d.speed d.eta d.filename)) ∧
      (¬ specTotalKnown d →
        progress_hook d = some (.downloadingEvt none d.speed d.eta d.filename)) ∧
      (specTotalKnown d ↔ totalOf d ≠ 0)) ∧
    (d.status = some "finished" →
      progress_hook d = some (.statusNote "download finished, converting...")) := by
  constructor
  · intro hst
    have hiff := totalOf_ne_zero_iff d
    refine ⟨?_, ?_, hiff.symm⟩
    · intro hk
      have ht : totalOf d ≠ 0 := hiff.mpr hk
      simp [progress_hook, hst, ht]
    · intro hk
      have ht : totalOf d = 0 := by
        by_contra h
        exact hk (hiff.mp h)
      simp [progress_hook, hst, ht]
  · intro hst
    simp [progress_hook, hst]

/-- C7 witness: 50 of 200 bytes downloaded gives percent 25. -/
theorem progress_hook_percent_spec_witness :
    progress_hook hookD0 =
      some (HookPush.downloadingEvt (some 25) none none none) := by
  have hk : specTotalKnown hookD0 := Or.inl ⟨200, rfl, by norm_num⟩
  have h := ((progress_hook_percent_spec hookD0).1 rfl).1 hk
  rw [h]
  norm_num [downloadedOf, totalOf, pyOrQ, hookD0]

/- ===================================================================
   C8
   =================================================================== -/

/-- C8 counterexample: when the timer fires first on a still-present job
and the recursive deletion fails, the error is silently suppressed by
`ignore_errors=True` inside `rmtree` — nothing is logged (the
`except`/log branch never sees it), contradicting "deletion errors are
logged".  It is still not propagated. -/
theorem cleanup_deletion_error_not_logged :
    cleanupSuppressed (cleanup_run store1 "tok" true) = true ∧
    cleanupLogged (cleanup_run store1 "tok" true) = false ∧
    cleanupRaised (cleanup_run store1 "tok" true) = false := by
  exact ⟨rfl, rfl, rfl⟩

/-- C8 amended: the cleanup action never raises to its caller and never
logs a deletion error (deletion failures are silently suppressed by
`ignore_errors=True`); when the token was already consumed it deletes
nothing. -/
theorem cleanup_never_raises (store : Store) (token : String)
    (deletionFails : Bool) :
    cleanupRaised (cleanup_run store token deletionFails) = false ∧
    cleanupLogged (cleanup_run store token deletionFails) = false ∧
    (store token = none →
      cleanup_run store token deletionFails =
        .ok ⟨(storeTake store token).2, none, false, false⟩) := by
  refine ⟨?_, ?_, ?_⟩ <;>
    · unfold cleanup_run rmtreeModel storeTake
      cases h : store token <;> cases deletionFails <;>
        simp [h, cleanupRaised, cleanupLogged, storeTake]

/-- C8 witness: the timer fires on an already-consumed token while the
(hypothetical) deletion would fail; nothing is deleted, nothing raised. -/
theorem cleanup_never_raises_witness :
    cleanupRaised (cleanup_run emptyStore "t" true) = false ∧
    cleanupDeleted (cleanup_run emptyStore "t" true) = none := by
  have h := cleanup_never_raises emptyStore "t" true
  refine ⟨h.1, ?_⟩
  rw [h.2.2 rfl]
  rfl

/- ===================================================================
   C4
   =================================================================== -/

/-- C4 counterexample: with a secret configured and no `X-API-Key`
header, `/download/<token>` still serves the file — the handler performs
no API-key comparison, so the request is not rejected with a 403. -/
theorem download_endpoint_skips_api_key_check :
    (download_token (some "secret") none store1 "tok").resp =
      DlResp.file "tmp/ydl_abc/song.mp3" "song.mp3" ∧
    DlResp.isRejection (download_token (some "secret") none store1 "tok").resp
      = false := by
  exact ⟨rfl, rfl⟩

/-- A missing, empty, or mismatched `X-API-Key` header. -/
def headerFails (k : String) (header : Option String) : Prop :=
  header = none ∨ header = some "" ∨ ∃ h, header = some h ∧ h ≠ k

/-- C4 amended: with a (truthy) secret configured, `/progress` and
`/fetch` reject a request carrying a nonempty url and a missing, empty,
or mismatched key with a 403 before any work; `/download/<token>`
performs no key check at all — its behaviour is identical with and
without the secret and header. -/
theorem api_key_enforcement_amended (k : String) (header : Option String)
    (url : String) (store : Store) (token : String)
    (hk : k ≠ "") (hh : headerFails k header) (hu : url ≠ "") :
    (∃ m, fetchTrace (some k) (some url) header = [Act.rejected 403 m] ∧
          progressTrace (some k) (some url) header = [Act.rejected 403 m]) ∧
    download_token (some k) header store token =
      download_token none none store token := by
  constructor
  · have hg : ∃ m, apiKeyGate (some k) header = some (403, m) := by
      rcases hh with h | h | ⟨h0, h1, h2⟩
      · subst h
        exact ⟨"missing X-API-Key header", by simp [apiKeyGate, hk]⟩
      · subst h
        exact ⟨"missing X-API-Key header", by simp [apiKeyGate, hk]⟩
      · subst h1
        by_cases h3 : h0 = ""
        · exact ⟨"missing X-API-Key header", by simp [apiKeyGate, hk, h3]⟩
        · exact ⟨"invalid api key", by simp [apiKeyGate, hk, h3, h2]⟩
    rcases hg with ⟨m, hm⟩
    exact ⟨m, by simp [fetchTrace, hu, hm], by simp [progressTrace, hu, hm]⟩
  · rfl

/-- C4 witness: concrete secret, absent header, nonempty url. -/
theorem api_key_enforcement_amended_witness :
    fetchTrace (some "secret") (some "https://youtu.be/x") none =
      progressTrace (some "secret") (some "https://youtu.be/x") none ∧
    download_token (some "secret") none emptyStore "t" =
      download_token none none emptyStore "t" := by
  have h := api_key_enforcement_amended "secret" none "https://youtu.be/x"
    emptyStore "t" (by decide) (Or.inl rfl) (by decide)
  obtain ⟨⟨m, hf, hp⟩, hd⟩ := h
  exact ⟨hf.trans hp.symm, hd⟩

/- ===================================================================
   C6
   =================================================================== -/

/-- C6 counterexample: a URL failing the pattern check, sent with a
mismatched API key, is rejected with 403 (the key gate fires first), not
with a 400-equivalent. -/
theorem invalid_url_with_bad_key_rejected_403 :
    is_youtube_url "https://example.com/watch" = false ∧
    fetchTrace (some "k") (some "https://example.com/watch") (some "wrong") =
      [Act.rejected 403 "invalid api key"] ∧
    progressTrace (some "k") (some "https://example.com/watch") (some "wrong") =
      [Act.rejected 403 "invalid api key"] := by
  exact ⟨by decide, by decide, by decide⟩

/-- C6 amended: for every URL failing `is_youtube_url`, both `/fetch` and
`/progress` reject the request before any temporary directory is
created; when the API-key gate does not itself reject (and so the URL
check is reached, or the url is empty), the rejection is a 400. -/
theorem invalid_url_rejected_before_tempdir (apiKey header : Option String)
    (url : String) (hurl : is_youtube_url url = false) :
    Act.createdTempDir ∉ fetchTrace apiKey (some url) header ∧
    Act.createdTempDir ∉ progressTrace apiKey (some url) header ∧
    (∃ c m, fetchTrace apiKey (some url) header = [Act.rejected c m] ∧
            progressTrace apiKey (some url) header = [Act.rejected c m]) ∧
    (apiKeyGate apiKey header = none →
      ∃ m, fetchTrace apiKey (some url) header = [Act.rejected 400 m] ∧
           progressTrace apiKey (some url) header = [Act.rejected 400 m]) := by
  by_cases hu : url = ""
  · subst hu
    exact ⟨by simp [fetchTrace], by simp [progressTrace],
      ⟨400, "missing url parameter", by simp [fetchTrace], by simp [progressTrace]⟩,
      fun _ => ⟨"missing url parameter", by simp [fetchTrace], by simp [progressTrace]⟩⟩
  · cases hg : apiKeyGate apiKey header with
    | some p =>
      obtain ⟨c, m⟩ := p
      refine ⟨?_, ?_, ⟨c, m, ?_, ?_⟩, ?_⟩ <;>
        simp [fetchTrace, progressTrace, hu, hg]
    | none =>
      refine ⟨?_, ?_, ⟨400, "unsupported url domain", ?_, ?_⟩, fun _ =>
        ⟨"unsupported url domain", ?_, ?_⟩⟩ <;>
        simp [fetchTrace, progressTrace, hu, hg, hurl]

/-- C6 witness: a concrete non-matching URL with no key configured. -/
theorem invalid_url_rejected_before_tempdir_witness :
    Act.createdTempDir ∉ fetchTrace none (some "https://example.com/watch") none :=
  (invalid_url_rejected_before_tempdir none none "https://example.com/watch"
    (by decide)).1

/- ===================================================================
   C9
   =================================================================== -/

/-- C9 counterexample: when zero candidate files exist, the failure
message raised (and surfaced as the Failed event) is
`expected mp3 file not found after download`, not the claimed
`expected output file not found`. -/
theorem single_output_error_message_differs :
    chooseSingleOutput [] "video" =
      Except.error "expected mp3 file not found after download" ∧
    "expected mp3 file not found after download" ≠
      "expected output file not found" := by
  exact ⟨rfl, by decide⟩

/-- C9 amended: the output file for a single-item result is chosen by the
exact expected name (sanitized title + `.mp3`) first, then among the
`.mp3` files of the temp directory; the job fails — with message
`expected mp3 file not found after download` — if and only if zero
candidate `.mp3` files exist, and that is the only failure message this
step can produce. -/
theorem single_output_selection_spec (files : List String) (title : String) :
    ((title ++ ".mp3") ∈ files →
      chooseSingleOutput files title = .ok (title ++ ".mp3")) ∧
    (chooseSingleOutput files title =
        .error "expected mp3 file not found after download" ↔
      files.filter isMp3Name = []) ∧
    (∀ m, chooseSingleOutput files title = .error m →
      m = "expected mp3 file not found after download") := by
  by_cases hmem : (title ++ ".mp3") ∈ files
  · have hchoose : chooseSingleOutput files title = .ok (title ++ ".mp3") := by
      simp [chooseSingleOutput, hmem]
    have hfil : files.filter isMp3Name ≠ [] := by
      intro h
      have := List.filter_eq_nil_iff.mp h _ hmem
      exact this (isMp3Name_expected title)
    refine ⟨fun _ => hchoose, ?_, ?_⟩
    · rw [hchoose]
      constructor
      · intro h; cases h
      · intro h; exact absurd h hfil
    · intro m h
      rw [hchoose] at h
      cases h
  · cases hf : files.filter isMp3Name with
    | nil =>
      have hchoose : chooseSingleOutput files title =
          .error "expected mp3 file not found after download" := by
        simp [chooseSingleOutput, hmem, hf]
      refine ⟨fun h => absurd h hmem, by rw [hchoose]; simp, ?_⟩
      intro m h
      rw [hchoose] at h
      cases h
      rfl
    | cons f t =>
      cases t with
      | nil =>
        have hchoose : chooseSingleOutput files title = .ok f := by
          simp [chooseSingleOutput, hmem, hf]
        refine ⟨fun h => absurd h hmem, by rw [hchoose]; simp [hf], ?_⟩
        intro m h
        rw [hchoose] at h
        cases h
      | cons g t2 =>
        have hchoose : chooseSingleOutput files title =
            .ok (((f :: g :: t2).find? (fun x => substrB title x)).getD f) := by
          simp [chooseSingleOutput, hmem, hf]
        refine ⟨fun h => absurd h hmem, by rw [hchoose]; simp [hf], ?_⟩
        intro m h
        rw [hchoose] at h
        cases h

/-- C9 witness: the exact expected name is present and chosen. -/
theorem single_output_selection_spec_witness :
    chooseSingleOutput ["song.mp3"] "song" = .ok ("song" ++ ".mp3") :=
  (single_output_selection_spec ["song.mp3"] "song").1 (by decide)

/- ===================================================================
   SSE generator lemmas
   =================================================================== -/

theorem pushesOf_cons_push (e : SSE) (ls : List WStep) :
    pushesOf (WStep.wpush e :: ls) = e :: pushesOf ls := rfl

theorem pushesOf_cons_finish (ls : List WStep) :
    pushesOf (WStep.wfinish :: ls) = pushesOf ls := rfl

theorem pushesOf_append (l1 l2 : List WStep) :
    pushesOf (l1 ++ l2) = pushesOf l1 ++ pushesOf l2 :=
  List.filterMap_append _ _ _

theorem mem_pushesOf {e : SSE} {ls : List WStep} (h : WStep.wpush e ∈ ls) :
    e ∈ pushesOf ls :=
  List.mem_filterMap.mpr ⟨WStep.wpush e, h, rfl⟩

/-- Effect of running `n` worker steps: a prefix of the pending steps is
executed; its pushes are appended to the queue in order, and the
finished flag can only have become true if a `wfinish` was among them. -/
theorem wsteps_spec : ∀ (n : Nat) (s : GenSt), ∃ m,
    (wsteps n s).pending = s.pending.drop m ∧
    (wsteps n s).queue = s.queue ++ pushesOf (s.pending.take m) ∧
    ((wsteps n s).finished = true →
      s.finished = true ∨ WStep.wfinish ∈ s.pending.take m) ∧
    (s.finished = true → (wsteps n s).finished = true) := by
  intro n
  induction n with
  | zero =>
    intro s
    exact ⟨0, by simp [wsteps], by simp [wsteps, pushesOf],
      fun h => Or.inl h, fun h => h⟩
  | succ k ih =>
    intro s
    match s with
    | ⟨q, f, []⟩ =>
      obtain ⟨m, h1, h2, h3, h4⟩ := ih ⟨q, f, []⟩
      exact ⟨m, h1, h2, h3, h4⟩
    | ⟨q, f, .wpush e :: ws⟩ =>
      obtain ⟨m, h1, h2, h3, h4⟩ := ih ⟨q ++ [e], f, ws⟩
      refine ⟨m + 1, ?_, ?_, ?_, ?_⟩
      · simpa [wsteps, wstep] using h1
      · show (wsteps k ⟨q ++ [e], f, ws⟩).queue = _
        rw [h2]
        simp [List.take_succ_cons, pushesOf_cons_push]
      · intro hfin
        rcases h3 hfin with h | h
        · exact Or.inl h
        · exact Or.inr (List.mem_cons_of_mem _ h)
      · exact h4
    | ⟨q, f, .wfinish :: ws⟩ =>
      obtain ⟨m, h1, h2, h3, h4⟩ := ih ⟨q, true, ws⟩
      refine ⟨m + 1, ?_, ?_, ?_, ?_⟩
      · simpa [wsteps, wstep] using h1
      · show (wsteps k ⟨q, true, ws⟩).queue = _
        rw [h2]
        simp [List.take_succ_cons, pushesOf_cons_finish]
      · intro _
        exact Or.inr (List.mem_cons_self _ _)
      · intro _
        exact h4 rfl

/-- Soundness of the draining loop: if it exits, the flag is set and the
queue is drained, some prefix of the worker's steps has executed, the
flag can only be set because a `wfinish` executed, and every event that
was in the queue or was pushed by an executed step has been yielded. -/
theorem genLoop_spec : ∀ (fuel : Nat) (sched : List Nat) (s : GenSt)
    (out : List Item) (sf : GenSt),
    genLoop fuel sched s = some (out, sf) →
    sf.finished = true ∧ sf.queue = [] ∧
    ∃ k, sf.pending = s.pending.drop k ∧
      (s.finished = true ∨ WStep.wfinish ∈ s.pending.take k) ∧
      (∀ e, e ∈ s.queue ++ pushesOf (s.pending.take k) → Item.event e ∈ out) := by
  intro fuel
  induction fuel with
  | zero =>
    intro sched s out sf h
    simp [genLoop] at h
  | succ fuel ih =>
    intro sched s out sf hrun
    simp only [genLoop] at hrun
    obtain ⟨m, hp, hq, hf, hmono⟩ := wsteps_spec (sched.headD 0) s
    by_cases hcond : (wsteps (sched.headD 0) s).finished = true ∧
        (wsteps (sched.headD 0) s).queue = []
    · rw [if_pos hcond] at hrun
      injection hrun with h
      injection h with h1 h2
      subst h1
      subst h2
      refine ⟨hcond.1, hcond.2, m, hp, hf hcond.1, ?_⟩
      intro e he
      rw [← hq] at he
      rw [hcond.2] at he
      cases he
    · rw [if_neg hcond] at hrun
      cases hq1 : (wsteps (sched.headD 0) s).queue with
      | cons e rest =>
        rw [hq1] at hrun
        dsimp only at hrun
        cases hrec : genLoop fuel sched.tail
            ⟨rest, (wsteps (sched.headD 0) s).finished,
             (wsteps (sched.headD 0) s).pending⟩ with
        | none => rw [hrec] at hrun; cases hrun
        | some pr =>
          obtain ⟨out2, sf2⟩ := pr
          rw [hrec] at hrun
          dsimp only at hrun
          injection hrun with h
          injection h with h1 h2
          subst h1
          subst h2
          obtain ⟨hfin2, hque2, k2, hp2, horg2, hcov2⟩ :=
            ih sched.tail _ out2 sf2 hrec
          dsimp only at hp2 horg2 hcov2
          refine ⟨hfin2, hque2, m + k2, ?_, ?_, ?_⟩
          · rw [hp2, hp, List.drop_drop]
          · rcases horg2 with h | h
            · rcases hf h with h2 | h2
              · exact Or.inl h2
              · refine Or.inr ?_
                rw [List.take_add]
                exact List.mem_append_left _ h2
            · refine Or.inr ?_
              rw [List.take_add]
              rw [hp] at h
              exact List.mem_append_right _ h
          · intro e2 he2
            rw [List.take_add, pushesOf_append, ← List.append_assoc] at he2
            rcases List.mem_append.mp he2 with h | h
            · rw [← hq] at h
              rw [hq1] at h
              rcases List.mem_cons.mp h with h2 | h2
              · subst h2
                exact List.mem_cons_self _ _
              · refine List.mem_cons_of_mem _ ?_
                apply hcov2
                rw [hp]
                exact List.mem_append_left _ h2
            · refine List.mem_cons_of_mem _ ?_
              apply hcov2
              rw [hp]
              exact List.mem_append_right _ h
      | nil =>
        rw [hq1] at hrun
        dsimp only at hrun
        cases hrec : genLoop fuel sched.tail (wsteps (sched.headD 0) s) with
        | none => rw [hrec] at hrun; cases hrun
        | some pr =>
          obtain ⟨out2, sf2⟩ := pr
          rw [hrec] at hrun
          dsimp only at hrun
          injection hrun with h
          injection h with h1 h2
          subst h1
          subst h2
          obtain ⟨hfin2, hque2, k2, hp2, horg2, hcov2⟩ :=
            ih sched.tail _ out2 sf2 hrec
          refine ⟨hfin2, hque2, m + k2, ?_, ?_, ?_⟩
          · rw [hp2, hp, List.drop_drop]
          · rcases horg2 with h | h
            · rcases hf h with h2 | h2
              · exact Or.inl h2
              · refine Or.inr ?_
                rw [List.take_add]
                exact List.mem_append_left _ h2
            · refine Or.inr ?_
              rw [List.take_add]
              rw [hp] at h
              exact List.mem_append_right _ h
          · intro e2 he2
            rw [List.take_add, pushesOf_append, ← List.append_assoc] at he2
            rcases List.mem_append.mp he2 with h | h
            · rw [← hq] at h
              rw [hq1] at h
              cases h
            · refine List.mem_cons_of_mem _ ?_
              apply hcov2
              rw [hq1, List.nil_append, hp]
              exact h

theorem wstep_names (s : GenSt)
    (hq : ∀ e ∈ s.queue, e.name = "progress")
    (hp : ∀ e, WStep.wpush e ∈ s.pending → e.name = "progress") :
    (∀ e ∈ (wstep s).queue, e.name = "progress") ∧
    (∀ e, WStep.wpush e ∈ (wstep s).pending → e.name = "progress") := by
  match s with
  | ⟨q, f, []⟩ => exact ⟨hq, hp⟩
  | ⟨q, f, .wpush e0 :: ws⟩ =>
    refine ⟨?_, ?_⟩
    · intro e he
      rcases List.mem_append.mp he with h | h
      · exact hq e h
      · rw [List.mem_singleton.mp h]
        exact hp e0 (List.mem_cons_self _ _)
    · intro e he
      exact hp e (List.mem_cons_of_mem _ he)
  | ⟨q, f, .wfinish :: ws⟩ =>
    exact ⟨hq, fun e he => hp e (List.mem_cons_of_mem _ he)⟩

theorem wsteps_names : ∀ (n : Nat) (s : GenSt),
    (∀ e ∈ s.queue, e.name = "progress") →
    (∀ e, WStep.wpush e ∈ s.pending → e.name = "progress") →
    (∀ e ∈ (wsteps n s).queue, e.name = "progress") ∧
    (∀ e, WStep.wpush e ∈ (wsteps n s).pending → e.name = "progress") := by
  intro n
  induction n with
  | zero => intro s hq hp; exact ⟨hq, hp⟩
  | succ k ih =>
    intro s hq hp
    obtain ⟨hq2, hp2⟩ := wstep_names s hq hp
    exact ih (wstep s) hq2 hp2

/-- Every SSE event the draining loop yields came off the queue, hence is
a worker-pushed `progress` event. -/
theorem genLoop_names : ∀ (fuel : Nat) (sched : List Nat) (s : GenSt)
    (out : List Item) (sf : GenSt),
    (∀ e ∈ s.queue, e.name = "progress") →
    (∀ e, WStep.wpush e ∈ s.pending → e.name = "progress") →
    genLoop fuel sched s = some (out, sf) →
    ∀ i ∈ out, ∀ e, i = Item.event e → e.name = "progress" := by
  intro fuel
  induction fuel with
  | zero =>
    intro sched s out sf _ _ h
    simp [genLoop] at h
  | succ fuel ih =>
    intro sched s out sf hq hp hrun
    simp only [genLoop] at hrun
    obtain ⟨hq1, hp1⟩ := wsteps_names (sched.headD 0) s hq hp
    by_cases hcond : (wsteps (sched.headD 0) s).finished = true ∧
        (wsteps (sched.headD 0) s).queue = []
    · rw [if_pos hcond] at hrun
      injection hrun with h
      injection h with h1 h2
      subst h1
      intro i hi
      cases hi
    · rw [if_neg hcond] at hrun
      cases hq2 : (wsteps (sched.headD 0) s).queue with
      | cons e rest =>
        rw [hq2] at hrun
        dsimp only at hrun
        cases hrec : genLoop fuel sched.tail
            ⟨rest, (wsteps (sched.headD 0) s).finished,
             (wsteps (sched.headD 0) s).pending⟩ with
        | none => rw [hrec] at hrun; cases hrun
        | some pr =>
          obtain ⟨out2, sf2⟩ := pr
          rw [hrec] at hrun
          dsimp only at hrun
          injection hrun with h
          injection h with h1 h2
          subst h1
          have hrest : ∀ e2 ∈ rest, e2.name = "progress" := by
            intro e2 he2
            exact hq1 e2 (by rw [hq2]; exact List.mem_cons_of_mem _ he2)
          have htail := ih sched.tail
            ⟨rest, (wsteps (sched.headD 0) s).finished,
             (wsteps (sched.headD 0) s).pending⟩ out2 sf2 hrest hp1 hrec
          intro i hi e2 hie
          rcases List.mem_cons.mp hi with h2 | h2
          · subst h2
            injection hie with h3
            rw [← h3]
            exact hq1 e (by rw [hq2]; exact List.mem_cons_self _ _)
          · exact htail i h2 e2 hie
      | nil =>
        rw [hq2] at hrun
        dsimp only at hrun
        cases hrec : genLoop fuel sched.tail (wsteps (sched.headD 0) s) with
        | none => rw [hrec] at hrun; cases hrun
        | some pr =>
          obtain ⟨out2, sf2⟩ := pr
          rw [hrec] at hrun
          dsimp only at hrun
          injection hrun with h
          injection h with h1 h2
          subst h1
          have htail := ih sched.tail _ out2 sf2 hq1 hp1 hrec
          intro i hi e2 hie
          rcases List.mem_cons.mp hi with h2 | h2
          · subst h2
            cases hie
          · exact htail i h2 e2 hie

theorem runDownloadTrace_names (hookData : List String) (finalData : String) :
    ∀ e, WStep.wpush e ∈ runDownloadTrace hookData finalData →
      e.name = "progress" := by
  intro e he
  unfold runDownloadTrace at he
  rcases List.mem_append.mp he with h | h
  · obtain ⟨d, _, hd⟩ := List.mem_map.mp h
    injection hd with hd2
    rw [← hd2]
  · rcases List.mem_cons.mp h with h2 | h2
    · cases h2
    · have h3 := List.mem_singleton.mp h2
      injection h3 with h4
      rw [h4]

/- ===================================================================
   C2
   =================================================================== -/

/-- C2: for every completed event stream of the `/progress` generator,
exactly one terminal event — `done` on success, `error` on failure — is
delivered, and it is the last item of the stream: every `progress` event
and keep-alive precedes it.  (The loop yields only worker-pushed
`progress` events and keep-alive comments; the single terminal event is
emitted after the loop from `result['success']`.) -/
theorem sse_terminal_event_unique_and_last (fuel : Nat) (sched : List Nat)
    (hookData : List String) (finalData : String) (success : Bool)
    (doneData errorData : String) (out : List Item) (sf : GenSt)
    (hrun : generateRun fuel sched success doneData errorData
      (runDownloadTrace hookData finalData) = some (out, sf)) :
    (out.filter isTerminalItem).length = 1 ∧
    out.getLast? = some (Item.event ⟨if success then "done" else "error",
                                     if success then doneData else errorData⟩) := by
  unfold generateRun at hrun
  cases hloop : genLoop fuel sched ⟨[], false, runDownloadTrace hookData finalData⟩ with
  | none => rw [hloop] at hrun; cases hrun
  | some pr =>
    obtain ⟨body, sf2⟩ := pr
    rw [hloop] at hrun
    dsimp only at hrun
    injection hrun with h
    injection h with h1 h2
    subst h2
    have hnames := genLoop_names fuel sched _ body sf2
      (by intro e he; cases he) (runDownloadTrace_names hookData finalData) hloop
    have hbody : body.filter isTerminalItem = [] := by
      apply List.filter_eq_nil_iff.mpr
      intro i hi
      intro hterm
      cases i with
      | comment t => cases hterm
      | event e =>
        have hname := hnames (Item.event e) hi e rfl
        rw [isTerminalItem] at hterm
        rw [hname] at hterm
        cases hterm
    constructor
    · rw [← h1, List.filter_append, hbody, List.nil_append]
      cases success <;> rfl
    · rw [← h1]
      exact List.getLast?_concat _

/-- C2 witness: a concrete schedule delivering one worker event and the
terminal `done` event. -/
theorem sse_terminal_event_unique_and_last_witness :
    (([Item.event ⟨"progress", "wf"⟩, Item.event ⟨"done", "D"⟩].filter
        isTerminalItem).length = 1) ∧
    [Item.event ⟨"progress", "wf"⟩, Item.event ⟨"done", "D"⟩].getLast? =
      some (Item.event ⟨"done", "D"⟩) := by
  have h := sse_terminal_event_unique_and_last 2 [2] [] "wf" true "D" "E"
    [Item.event ⟨"progress", "wf"⟩, Item.event ⟨"done", "D"⟩]
    ⟨[], true, []⟩ (by decide)
  simpa using h

/- ===================================================================
   C3
   =================================================================== -/

/-- C3 counterexample: `run_download` sets `finished['done'] = True`
BEFORE pushing its final event (lines 396-398).  In the schedule where
the consumer polls between those two worker steps, the loop's condition
sees the flag set and the queue empty and exits, delivering nothing; the
worker's remaining step then pushes an event that is never delivered —
refuting "no event pushed by the worker is ever left undelivered". -/
theorem sse_event_after_finish_flag_dropped :
    genLoop 1 [1] ⟨[], false, runDownloadTrace [] "worker finished"⟩ =
      some ([], ⟨[], true, [WStep.wpush ⟨"progress", "worker finished"⟩]⟩) ∧
    wsteps 1 ⟨[], true, [WStep.wpush ⟨"progress", "worker finished"⟩]⟩ =
      ⟨[⟨"progress", "worker finished"⟩], true, []⟩ ∧
    Item.event ⟨"progress", "worker finished"⟩ ∉ ([] : List Item) := by
  exact ⟨by decide, by decide, by decide⟩

/-- C3 amended: the draining loop terminates exactly when the finished
flag is set and the queue is empty, and under this termination condition
every event pushed BEFORE the flag is set is delivered; the single event
`run_download` pushes after setting the flag (the final worker-finished
note, whose purpose is only to wake the poll loop) can be lost to the
race exhibited by the counterexample. -/
theorem sse_prefinish_events_delivered (fuel : Nat) (sched : List Nat)
    (pre post : List WStep) (out : List Item) (sf : GenSt)
    (hpre : WStep.wfinish ∉ pre)
    (hrun : genLoop fuel sched ⟨[], false, pre ++ WStep.wfinish :: post⟩ =
      some (out, sf)) :
    sf.finished = true ∧ sf.queue = [] ∧
    ∀ e, WStep.wpush e ∈ pre → Item.event e ∈ out := by
  obtain ⟨hfin, hque, k, hp, horigin, hcov⟩ :=
    genLoop_spec fuel sched _ out sf hrun
  refine ⟨hfin, hque, ?_⟩
  rcases horigin with h | h
  · cases h
  · have hk : pre.length < k := by
      by_contra hle
      push_neg at hle
      apply hpre
      have h2 : (pre ++ WStep.wfinish :: post).take k =
          pre.take k ++ (WStep.wfinish :: post).take (k - pre.length) := by
        rw [List.take_append_eq_append_take]
      rw [Nat.sub_eq_zero_of_le hle] at h2
      rw [h2] at h
      rw [List.take_zero, List.append_nil] at h
      exact List.take_subset _ _ h
    intro e he
    apply hcov
    rw [List.nil_append]
    have h2 : (pre ++ WStep.wfinish :: post).take k =
        pre ++ (WStep.wfinish :: post).take (k - pre.length) := by
      rw [List.take_append_eq_append_take, List.take_of_length_le (Nat.le_of_lt hk)]
    rw [h2, pushesOf_append]
    exact List.mem_append_left _ (mem_pushesOf he)

/-- C3 amended witness: an event pushed before the flag is set is
delivered by a run of the loop. -/
theorem sse_prefinish_events_delivered_witness :
    Item.event ⟨"progress", "p1"⟩ ∈
      [Item.event ⟨"progress", "p1"⟩,
       Item.event ⟨"progress", "worker finished"⟩] := by
  have h := sse_prefinish_events_delivered 3 [3]
    [WStep.wpush ⟨"progress", "p1"⟩]
    [WStep.wpush ⟨"progress", "worker finished"⟩]
    [Item.event ⟨"progress", "p1"⟩, Item.event ⟨"progress", "worker finished"⟩]
    ⟨[], true, []⟩ (by decide) (by decide)
  exact h.2.2 ⟨"progress", "p1"⟩ (by decide)

/- ===================================================================
   C10: well-formedness of sanitize_filename output
   =================================================================== -/

/-- Adjacent characters are not both whitespace (no run of more than one
whitespace character). -/
def okPair (a b : Char) : Prop :=
  isSpaceChar a = false ∨ isSpaceChar b = false

instance : DecidableRel okPair := fun _ _ =>
  inferInstanceAs (Decidable (_ ∨ _))

theorem mem_collapseWS : ∀ (l : List Char) (b : Bool) (c : Char),
    c ∈ collapseWS b l → c = ' ' ∨ c ∈ l := by
  intro l
  induction l with
  | nil => intro b c h; cases h
  | cons x xs ih =>
    intro b c h
    rw [collapseWS] at h
    by_cases hx : isSpaceChar x
    · rw [if_pos hx] at h
      cases b with
      | true =>
        rcases ih true c h with h2 | h2
        · exact Or.inl h2
        · exact Or.inr (List.mem_cons_of_mem _ h2)
      | false =>
        rcases List.mem_cons.mp h with h2 | h2
        · exact Or.inl h2
        · rcases ih true c h2 with h3 | h3
          · exact Or.inl h3
          · exact Or.inr (List.mem_cons_of_mem _ h3)
    · rw [if_neg hx] at h
      rcases List.mem_cons.mp h with h2 | h2
      · exact Or.inr (by rw [h2]; exact List.mem_cons_self _ _)
      · rcases ih false c h2 with h3 | h3
        · exact Or.inl h3
        · exact Or.inr (List.mem_cons_of_mem _ h3)

theorem collapseWS_true_head : ∀ (l : List Char) (c : Char),
    (collapseWS true l).head? = some c → isSpaceChar c = false := by
  intro l
  induction l with
  | nil => intro c h; cases h
  | cons x xs ih =>
    intro c h
    rw [collapseWS] at h
    by_cases hx : isSpaceChar x
    · rw [if_pos hx, if_pos rfl] at h
      exact ih c h
    · rw [if_neg hx] at h
      injection h with h2
      rw [← h2]
      exact Bool.not_eq_true _ ▸ (eq_false_of_ne_true hx)

theorem chain'_collapseWS : ∀ (l : List Char) (b : Bool),
    List.Chain' okPair (collapseWS b l) := by
  intro l
  induction l with
  | nil => intro b; rw [collapseWS]; exact List.chain'_nil
  | cons x xs ih =>
    intro b
    rw [collapseWS]
    by_cases hx : isSpaceChar x
    · rw [if_pos hx]
      cases b with
      | true => exact ih true
      | false =>
        rw [if_neg (by simp)]
        apply List.chain'_cons'.mpr
        refine ⟨?_, ih true⟩
        intro y hy
        exact Or.inr (collapseWS_true_head xs y hy)
    · rw [if_neg hx]
      apply List.chain'_cons'.mpr
      refine ⟨?_, ih false⟩
      intro y _
      exact Or.inl (eq_false_of_ne_true hx)

theorem rstripL_front (l : List Char) : rstripL l <+: l := by
  unfold rstripL
  apply List.reverse_suffix.mp
  rw [List.reverse_reverse]
  exact List.dropWhile_suffix isSpaceChar

/-- `l.take n` is an initial segment of `l`. -/
theorem take_front {α : Type} (n : Nat) (l : List α) : l.take n <+: l :=
  ⟨l.drop n, List.take_append_drop n l⟩

theorem head?_of_front {α : Type} {l1 l2 : List α} {c : α}
    (h : l1 <+: l2) (hc : l1.head? = some c) : l2.head? = some c := by
  obtain ⟨t, rfl⟩ := h
  cases l1 with
  | nil => cases hc
  | cons a l => exact hc

/-- `Chain'` restricts to initial segments. -/
theorem chain'_of_front {R : Char → Char → Prop} {l1 l2 : List Char}
    (hc : List.Chain' R l2) (h : l1 <+: l2) : List.Chain' R l1 :=
  List.Chain'.prefix hc h

theorem rstripL_getLast (l : List Char) (c : Char)
    (h : (rstripL l).getLast? = some c) : isSpaceChar c = false := by
  rw [rstripL, List.getLast?_reverse] at h
  have h2 := List.head?_dropWhile_not isSpaceChar l.reverse
  rw [h] at h2
  exact h2

theorem stripL_head (l : List Char) (c : Char)
    (h : (stripL l).head? = some c) : isSpaceChar c = false := by
  rw [stripL] at h
  have h2 := head?_of_front (rstripL_front _) h
  have h3 := List.head?_dropWhile_not isSpaceChar l
  rw [h2] at h3
  exact h3

theorem rstripL_length_le (l : List Char) : (rstripL l).length ≤ l.length :=
  (rstripL_front l).sublist.length_le

theorem rstripL_subset (l : List Char) : rstripL l ⊆ l :=
  (rstripL_front l).subset

theorem stripL_subset (l : List Char) : stripL l ⊆ l := fun _ h =>
  (List.dropWhile_suffix isSpaceChar).subset (rstripL_subset _ h)

theorem chain'_rstripL {l : List Char} (h : List.Chain' okPair l) :
    List.Chain' okPair (rstripL l) :=
  chain'_of_front h (rstripL_front l)

theorem chain'_stripL {l : List Char} (h : List.Chain' okPair l) :
    List.Chain' okPair (stripL l) :=
  chain'_rstripL (h.suffix (List.dropWhile_suffix _))

/-- Well-formedness of the core sanitizing pipeline. -/
theorem sanitizeCore_props (l : List Char) (n : Nat) :
    (∀ c ∈ sanitizeCore l n, unsafeChars.contains c = false) ∧
    List.Chain' okPair (sanitizeCore l n) ∧
    (∀ c, (sanitizeCore l n).head? = some c → isSpaceChar c = false) ∧
    (∀ c, (sanitizeCore l n).getLast? = some c → isSpaceChar c = false) ∧
    (sanitizeCore l n).length ≤ n := by
  unfold sanitizeCore
  set l2 := stripL (collapseWS false (removeUnsafe l)) with hl2
  have hsub : ∀ c ∈ l2, unsafeChars.contains c = false := by
    intro c hc
    have h2 := stripL_subset _ hc
    rcases mem_collapseWS _ _ _ h2 with h3 | h3
    · rw [h3]; rfl
    · have h4 := List.mem_filter.mp h3
      simpa using h4.2
  have hchain : List.Chain' okPair l2 :=
    chain'_stripL (chain'_collapseWS _ _)
  have hhead : ∀ c, l2.head? = some c → isSpaceChar c = false :=
    fun c h => stripL_head _ c h
  have hlast : ∀ c, l2.getLast? = some c → isSpaceChar c = false := by
    intro c h
    rw [hl2, stripL] at h
    exact rstripL_getLast _ c h
  by_cases htr : n < l2.length
  · rw [if_pos htr]
    refine ⟨?_, ?_, ?_, ?_, ?_⟩
    · intro c hc
      exact hsub c (List.take_subset _ _ (rstripL_subset _ hc))
    · exact chain'_rstripL (chain'_of_front hchain (take_front _ _))
    · intro c hc
      exact hhead c (head?_of_front (take_front _ _)
        (head?_of_front (rstripL_front _) hc))
    · intro c hc
      exact rstripL_getLast _ c hc
    · calc (rstripL (l2.take n)).length ≤ (l2.take n).length :=
            rstripL_length_le _
        _ ≤ n := by rw [List.length_take]; exact Nat.min_le_left _ _
  · rw [if_neg htr]
    exact ⟨hsub, hchain, hhead, hlast, Nat.le_of_not_lt htr⟩

/-- Executable check that no two adjacent characters are both
whitespace; used to evaluate `Chain' okPair` on concrete strings. -/
def noWSRunB : List Char → Bool
  | a :: b :: rest => (!(isSpaceChar a && isSpaceChar b)) && noWSRunB (b :: rest)
  | _ => true

theorem chain'_of_noWSRunB : ∀ (l : List Char),
    noWSRunB l = true → List.Chain' okPair l := by
  intro l
  induction l with
  | nil => intro _; exact List.chain'_nil
  | cons a t ih =>
    intro h
    cases t with
    | nil => exact List.chain'_singleton _
    | cons b rest =>
      rw [noWSRunB, Bool.and_eq_true] at h
      apply List.chain'_cons.mpr
      constructor
      · have h3 := h.1
        revert h3
        unfold okPair
        cases isSpaceChar a <;> cases isSpaceChar b <;> simp
      · exact ih h.2

/-- C10: for every input string the output of `sanitize_filename` is
non-empty, contains none of the characters `\ / : * ? " < > |`, neither
starts nor ends with a whitespace character, has no two adjacent
whitespace characters (hence no internal run of more than one), and is
at most 200 characters long. -/
theorem sanitize_filename_wellformed (s : String) :
    sanitize_filename s ≠ "" ∧
    (∀ c ∈ (sanitize_filename s).toList, unsafeChars.contains c = false) ∧
    (∀ c, (sanitize_filename s).toList.head? = some c → isSpaceChar c = false) ∧
    (∀ c, (sanitize_filename s).toList.getLast? = some c →
      isSpaceChar c = false) ∧
    List.Chain' okPair (sanitize_filename s).toList ∧
    (sanitize_filename s).toList.length ≤ 200 := by
  have huntitled : ("untitled" : String) ≠ "" ∧
      (∀ c ∈ ("untitled" : String).toList, unsafeChars.contains c = false) ∧
      (∀ c, ("untitled" : String).toList.head? = some c →
        isSpaceChar c = false) ∧
      (∀ c, ("untitled" : String).toList.getLast? = some c →
        isSpaceChar c = false) ∧
      List.Chain' okPair ("untitled" : String).toList ∧
      ("untitled" : String).toList.length ≤ 200 := by
    refine ⟨by decide, by decide, by decide, by decide,
      chain'_of_noWSRunB _ (by decide), by decide⟩
  unfold sanitize_filename
  by_cases h1 : s = ""
  · rw [if_pos h1]
    exact huntitled
  · rw [if_neg h1]
    by_cases h2 : sanitizeCore s.toList 200 = []
    · simp only [h2, if_pos rfl]
      exact huntitled
    · simp only [if_neg h2]
      obtain ⟨p1, p2, p3, p4, p5⟩ := sanitizeCore_props s.toList 200
      have htl : (String.mk (sanitizeCore s.toList 200)).toList =
          sanitizeCore s.toList 200 := rfl
      refine ⟨?_, ?_, ?_, ?_, ?_, ?_⟩
      · intro hcontra
        apply h2
        have := congrArg String.data hcontra
        exact this
      · rw [htl]; exact p1
      · rw [htl]; exact p3
      · rw [htl]; exact p4
      · rw [htl]; exact p2
      · rw [htl]; exact p5

/-- C10 witness: a concrete input exercising the head, last and
membership hypotheses. -/
theorem sanitize_filename_wellformed_witness :
    sanitize_filename " a\\b  c " ≠ "" ∧
    unsafeChars.contains 'a' = false ∧
    isSpaceChar 'a' = false ∧ isSpaceChar 'c' = false := by
  have h := sanitize_filename_wellformed " a\\b  c "
  exact ⟨h.1, h.2.1 'a' (by decide), h.2.2.1 'a' (by decide),
    h.2.2.2.1 'c' (by decide)⟩

end YtMp3
